import Mathlib

/-!
Verification of the minimax polynomial fitter (Remez exchange engine) of the
Parks-McClellan filter-design notebook.  The numeric code of the notebook
(`solve`, `find_error_extrema`, `remez_fit`, `remez_fit2`) is embedded
shallowly over `ℚ`: `np.linalg.solve` becomes an executable Gaussian
elimination over the rationals, `np.poly1d` evaluation becomes `polyEval`,
and the Python `raise` paths become `Except`/`Option` failures.
-/

attribute [local semireducible] Rat.add Rat.mul Rat.sub Rat.inv Rat.ofScientific

namespace Remez

/-- Dot product of two rational lists (truncating at the shorter one),
the row-times-vector product underlying the linear system. -/
def dotProd : List ℚ → List ℚ → ℚ
  | [], _ => 0
  | _, [] => 0
  | a :: as, b :: bs => a * b + dotProd as bs

/-- `[x^0, x^1, …, x^(m-1)]`: one row of `np.vander(x, increasing=True)`
restricted to its first `m` columns. -/
def powRow (x : ℚ) (m : ℕ) : List ℚ :=
  (List.range m).map (fun k => x ^ k)

/-- Evaluation of a polynomial given by its coefficient list in increasing
degree order (the evaluation behaviour of `np.poly1d(v[-2::-1])`). -/
def polyEval (p : List ℚ) (t : ℚ) : ℚ :=
  dotProd (powRow t p.length) p

/-- Find the first row whose leading coefficient is nonzero and return it
together with the remaining rows (the pivot search of the elimination that
realises `np.linalg.solve`). -/
def pickPivot : List (List ℚ × ℚ) → Option ((List ℚ × ℚ) × List (List ℚ × ℚ))
  | [] => none
  | r :: rs =>
    if r.1.headI ≠ 0 then some (r, rs)
    else (pickPivot rs).map (fun pr => (pr.1, r :: pr.2))

/-- Subtract the multiple of the pivot row that clears the leading
coefficient of row `r`; `a` is the pivot's leading coefficient. -/
def reduceRow (a : ℚ) (pt : List ℚ) (pb : ℚ) (r : List ℚ × ℚ) : List ℚ × ℚ :=
  (List.zipWith (fun u w => u - r.1.headI / a * w) r.1.tail pt,
    r.2 - r.1.headI / a * pb)

/-- Gaussian elimination on `n` unknowns: the exact content of
`np.linalg.solve` on a square system, returning `none` exactly when no
nonzero pivot can be found (the `LinAlgError` path). -/
def gaussAux : ℕ → List (List ℚ × ℚ) → Option (List ℚ)
  | 0, rows => if rows.all (fun r => r.2 = 0) then some [] else none
  | n + 1, rows =>
    match pickPivot rows with
    | none => none
    | some (piv, others) =>
      let a := piv.1.headI
      match gaussAux n (others.map (reduceRow a piv.1.tail piv.2)) with
      | none => none
      | some xs => some ((piv.2 - dotProd piv.1.tail xs) / a :: xs)

/-- The rows of the extended interpolation system of `solve`/`remez_fit2`:
row `i` is `[xᵢ^0, …, xᵢ^(m-1), (-1)^i * w xᵢ]` with right-hand side `yᵢ`
(`np.vander` with the last column replaced by the signed weight column). -/
def mkRows (w : ℚ → ℚ) (m : ℕ) : ℕ → List ℚ → List ℚ → List (List ℚ × ℚ)
  | _, [], _ => []
  | _, _, [] => []
  | i, xi :: xs, yi :: ys =>
    (powRow xi m ++ [(-1 : ℚ) ^ i * w xi], yi) :: mkRows w m (i + 1) xs ys

/-- The extended interpolation solver with weight column `w` (the inline
solver of `remez_fit2`; `w = 1` gives `solve`).  Returns the polynomial
coefficients `p[0..M]` (in increasing order, as `v[-2::-1]` reversed) and
`e = |v[-1]|`; `none` is the `LinAlgError` raised by `np.linalg.solve`. -/
def solveW (w : ℚ → ℚ) (x y : List ℚ) : Option (List ℚ × ℚ) :=
  match gaussAux x.length (mkRows w (x.length - 1) 0 x y) with
  | none => none
  | some v => some (v.dropLast, |v.getLastD 0|)

/-- The unweighted extended interpolation solver `solve(x, y)` of the
notebook: its error column is `pow(-1, arange(len(x)))`. -/
def solve (x y : List ℚ) : Option (List ℚ × ℚ) :=
  solveW (fun _ => 1) x y

/-- `np.sign` on a rational. -/
def sgn (q : ℚ) : ℚ :=
  if q < 0 then -1 else if q = 0 then 0 else 1

/-- `np.linspace(lo, hi, 100)`: the uniform 100-point sampling grid. -/
def linspace100 (lo hi : ℚ) : List ℚ :=
  (List.range 100).map (fun (k : ℕ) => lo + (k : ℚ) * ((hi - lo) / 99))

/-- `np.diff(np.sign(np.diff(y))).nonzero()[0] + 1`: the interior sample
indices where the sign of the discrete derivative of `y` changes. -/
def extremaIdx (y : List ℚ) : List ℕ :=
  ((List.range (y.length - 2)).filter
    (fun i => sgn (y.getD (i + 2) 0 - y.getD (i + 1) 0) ≠
      sgn (y.getD (i + 1) 0 - y.getD i 0))).map (· + 1)

/-- The body of `find_error_extrema` for one interval `(lo, hi)` with target
value `val`: sample the error `val - p(t)` on the 100-point grid and report
`t[0], t[ix], t[-1]` with the matching error values. -/
def regionExtrema (p : List ℚ) (lo hi val : ℚ) : List ℚ × List ℚ :=
  let t := linspace100 lo hi
  let y := t.map (fun u => val - polyEval p u)
  let ix := extremaIdx y
  (t.headI :: (ix.map (fun j => t.getD j 0) ++ [t.getLastD 0]),
   y.headI :: (ix.map (fun j => y.getD j 0) ++ [y.getLastD 0]))

/-- `find_error_extrema(p, A, B)`: region `[0, A]` (target 1) first, then
region `[B, 1]` (target 0), in the dictionary's insertion order. -/
def find_error_extrema (p : List ℚ) (A B : ℚ) : List ℚ × List ℚ :=
  let ra := regionExtrema p 0 A 1
  let rb := regionExtrema p B 1 0
  (ra.1 ++ rb.1, ra.2 ++ rb.2)

/-- An alternation candidate: the `{'loc', 'sign', 'err_mag'}` dictionary of
the selection step. -/
structure Cand where
  loc : ℚ
  sgn : ℚ
  mag : ℚ
deriving DecidableEq, Repr, Inhabited

/-- One pass of the candidate-selection loop body of `remez_fit`/`remez_fit2`
over an extremum `(loc, err)`: keep it only when its (weighted) magnitude is
at least `e - 1e-3`, appending on a sign change and replacing the last kept
candidate on a same-signed larger magnitude.  `w` is the weighting function
(`weigh` in `remez_fit2`, constantly 1 in `remez_fit`). -/
def selStep (w : ℚ → ℚ) (e : ℚ) (alt : List Cand) (le : ℚ × ℚ) : List Cand :=
  let c : Cand := ⟨le.1, sgn le.2, |le.2| / w le.1⟩
  if e - 1 / 1000 ≤ c.mag then
    if alt = [] ∨ (alt.getLastD default).sgn ≠ c.sgn then alt ++ [c]
    else if (alt.getLastD default).mag < c.mag then alt.dropLast ++ [c]
    else alt
  else alt

/-- The full `for n in range(0, len(loc))` selection loop. -/
def buildAlt (w : ℚ → ℚ) (e : ℚ) (pairs : List (ℚ × ℚ)) : List Cand :=
  pairs.foldl (selStep w e) []

/-- The body of the `while len(alt) > order + 2` trimming loop, indexed by a
fuel bound on the number of steps (each step shortens the list, so
`l.length` is enough fuel): drop the end whose extremum magnitude is
smaller (the left end on ties). -/
def trimAltF : ℕ → ℕ → List Cand → List Cand
  | 0, _, l => l
  | n + 1, k, l =>
    if k < l.length then
      if l.headI.mag > (l.getLastD default).mag then trimAltF n k l.dropLast
      else trimAltF n k l.tail
    else l

/-- The `while len(alt) > order + 2` trimming loop of the source, run with
its natural fuel. -/
def trimAlt (k : ℕ) (l : List Cand) : List Cand :=
  trimAltF l.length k l

deriving instance DecidableEq for Except

/-- The error cases of the Python code: `ValueError` for a too-small order,
`numpy.linalg.LinAlgError` from `np.linalg.solve`, and the
`UnboundLocalError` hit by `return p, data` when the loop body never ran. -/
inductive Err where
  | invalidParam
  | singular
  | nameError
deriving DecidableEq, Repr

/-- The values produced by one iteration of the exchange loop: the fitted
polynomial and error, the interpolation points the iteration started from
(`data['prev_x']`, `data['prev_y']`) and the newly selected points. -/
structure IterOut where
  p : List ℚ
  e : ℚ
  prevx : List ℚ
  prevy : List ℚ
  newx : List ℚ
  newy : List ℚ
deriving DecidableEq, Repr

/-- One iteration of the exchange loop: solve, locate the error extrema,
select the alternations, trim to `order + 2`, and retag the ordinates
(`1 if c <= A else 0`). -/
def remezStep (w : ℚ → ℚ) (A B : ℚ) (order : ℕ) (st : List ℚ × List ℚ) :
    Except Err IterOut :=
  match solveW w st.1 st.2 with
  | none => .error .singular
  | some pe =>
    let fe := find_error_extrema pe.1 A B
    let alt := trimAlt (order + 2) (buildAlt w pe.2 (fe.1.zip fe.2))
    let nx := alt.map Cand.loc
    let ny := nx.map (fun c => if c ≤ A then (1 : ℚ) else 0)
    .ok ⟨pe.1, pe.2, st.1, st.2, nx, ny⟩

/-- `for n in range(0, iterations)`: the driver loop, carrying the values of
the current iteration (`none` when the body has not run, in which case `p`
is still unbound). -/
def remezLoop (w : ℚ → ℚ) (A B : ℚ) (order : ℕ) :
    ℕ → List ℚ × List ℚ → Option IterOut → Except Err (Option IterOut)
  | 0, _, last => .ok last
  | n + 1, st, _ =>
    match remezStep w A B order st with
    | .error er => .error er
    | .ok o => remezLoop w A B order n (o.newx, o.newy) (some o)

/-- Python `int()` truncation of a rational (toward zero). -/
def pyInt (q : ℚ) : ℤ :=
  if q < 0 then -⌊-q⌋ else ⌊q⌋

/-- The initial interpolation points of `remez_fit`/`remez_fit2`:
`ptsA = int(pts * A / (A - B + 1))` clamped to at least 2, the rest in the
second region, placed at the evenly spaced interior locations
`k * A / (ptsA + 1)` (`k = 1..ptsA`) and `B + k * (1 - B) / (ptsB + 1)`
(`k = 1..ptsB`), with ordinates 1 on the first region and 0 on the second. -/
def initPts (A B : ℚ) (pts : ℕ) : List ℚ × List ℚ :=
  let pA0 := (pyInt (pts * A / (A - B + 1))).toNat
  let pA := if pA0 < 2 then 2 else pA0
  let pB := pts - pA
  ((List.range pA).map (fun (k : ℕ) => ((k : ℚ) + 1) * (A / (pA + 1))) ++
      (List.range pB).map (fun (k : ℕ) => B + ((k : ℚ) + 1) * ((1 - B) / (pB + 1))),
   List.replicate pA (1 : ℚ) ++ List.replicate pB (0 : ℚ))

/-- The `data` dictionary as returned by `remez_fit`. -/
structure RData where
  prevx : List ℚ
  prevy : List ℚ
  err : ℚ
  newx : List ℚ
deriving DecidableEq, Repr

/-- `remez_fit(A, B, order, iterations)`.  `iterations` is an integer, so a
non-positive count leaves the loop body unexecuted (`range(0, iterations)`
is empty) and the final `return p, data` raises. -/
def remez_fit (A B : ℚ) (order : ℕ) (iterations : ℤ) :
    Except Err (List ℚ × RData) :=
  if order < 3 then .error .invalidParam
  else
    match remezLoop (fun _ => 1) A B order iterations.toNat
        (initPts A B (order + 2)) none with
    | .error er => .error er
    | .ok none => .error .nameError
    | .ok (some o) => .ok (o.p, ⟨o.prevx, o.prevy, o.e, o.newx⟩)

/-- The weighting function of `remez_fit2`: `1.0/Aweight if x <= A else 1`. -/
def weigh (A Aweight : ℚ) (t : ℚ) : ℚ :=
  if t ≤ A then 1 / Aweight else 1

/-- The `data` dictionary as returned by `remez_fit2`
(`Aerr = e / Aweight`, `Berr = e`). -/
structure RData2 where
  prevx : List ℚ
  prevy : List ℚ
  Aerr : ℚ
  Berr : ℚ
  newx : List ℚ
deriving DecidableEq, Repr

/-- `remez_fit2(A, B, Aweight, order, iterations)`: the weighted variant.
Note that it performs no `order < 3` validation. -/
def remez_fit2 (A B Aweight : ℚ) (order : ℕ) (iterations : ℤ) :
    Except Err (List ℚ × RData2) :=
  match remezLoop (weigh A Aweight) A B order iterations.toNat
      (initPts A B (order + 2)) none with
  | .error er => .error er
  | .ok none => .error .nameError
  | .ok (some o) => .ok (o.p, ⟨o.prevx, o.prevy, o.e / Aweight, o.e, o.newx⟩)

/-- The candidate record built from one located extremum, as the spec's
Selecting step describes it (location, sign, weighted magnitude). -/
def mkCand (w : ℚ → ℚ) (le : ℚ × ℚ) : Cand :=
  ⟨le.1, sgn le.2, |le.2| / w le.1⟩

/-- Spec-side Selecting, stage 1: keep exactly the extrema whose magnitude
is at least `e` minus the tolerance `1e-3`. -/
def specKeep (w : ℚ → ℚ) (e : ℚ) (pairs : List (ℚ × ℚ)) : List (ℚ × ℚ) :=
  pairs.filter (fun le => e - 1 / 1000 ≤ (mkCand w le).mag)

/-- Spec-side Selecting, stage 2, one step of the left-to-right walk:
append a candidate when its sign differs from the last kept one, replace
the last kept one when same-signed with larger magnitude. -/
def walkStep (alt : List Cand) (c : Cand) : List Cand :=
  if alt = [] ∨ (alt.getLastD default).sgn ≠ c.sgn then alt ++ [c]
  else if (alt.getLastD default).mag < c.mag then alt.dropLast ++ [c]
  else alt

/-- Spec-side Selecting: filter first, then walk the kept list. -/
def specSelect (w : ℚ → ℚ) (e : ℚ) (pairs : List (ℚ × ℚ)) : List Cand :=
  (specKeep w e pairs).foldl (fun alt le => walkStep alt (mkCand w le)) []

/-- Whether a driver result is the `order < 3` validation failure. -/
def isInvalidParam : Except Err (List ℚ × RData2) → Bool
  | .error .invalidParam => true
  | _ => false

/-! ### Correctness of the Gaussian elimination behind `np.linalg.solve` -/

theorem dotProd_nil_right : ∀ u : List ℚ, dotProd u [] = 0 := by
  intro u; cases u <;> simp [dotProd]

theorem dotProd_zipWith_sub (c : ℚ) :
    ∀ (u w v : List ℚ), u.length = w.length →
      dotProd (List.zipWith (fun a b => a - c * b) u w) v =
        dotProd u v - c * dotProd w v := by
  intro u
  induction u with
  | nil =>
    intro w v h
    have : w = [] := by simpa using h.symm
    subst this
    simp [dotProd]
  | cons a as ih =>
    intro w v h
    cases w with
    | nil => simp at h
    | cons b bs =>
      cases v with
      | nil => simp [dotProd_nil_right]
      | cons x xs =>
        have hlen : as.length = bs.length := by simpa using h
        simp only [List.zipWith, dotProd, ih bs xs hlen]
        ring

theorem dotProd_append_single :
    ∀ (a b : List ℚ) (c d : ℚ), a.length = b.length →
      dotProd (a ++ [c]) (b ++ [d]) = dotProd a b + c * d := by
  intro a
  induction a with
  | nil =>
    intro b c d h
    have : b = [] := by simpa using h.symm
    subst this
    simp [dotProd]
  | cons x xs ih =>
    intro b c d h
    cases b with
    | nil => simp at h
    | cons y ys =>
      have hlen : xs.length = ys.length := by simpa using h
      simp only [List.cons_append, dotProd, List.append_eq]
      rw [ih ys c d hlen]
      ring

theorem mem_zipWith_pair {f : ℚ → ℚ → ℚ} :
    ∀ {l l2 : List ℚ} {c : ℚ}, c ∈ List.zipWith f l l2 →
      ∃ x ∈ l, ∃ y ∈ l2, c = f x y := by
  intro l
  induction l with
  | nil => intro l2 c h; simp at h
  | cons a as ih =>
    intro l2 c h
    cases l2 with
    | nil => simp at h
    | cons b bs =>
      simp only [List.zipWith, List.mem_cons] at h
      rcases h with h | h
      · exact ⟨a, by simp, b, by simp, h⟩
      · obtain ⟨x, hx, y, hy, hc⟩ := ih h
        exact ⟨x, by simp [hx], y, by simp [hy], hc⟩

theorem pickPivot_split :
    ∀ {rows : List (List ℚ × ℚ)} {p : List ℚ × ℚ} {o : List (List ℚ × ℚ)},
      pickPivot rows = some (p, o) →
      p.1.headI ≠ 0 ∧ ∃ l₁ l₂, rows = l₁ ++ p :: l₂ ∧ o = l₁ ++ l₂ := by
  intro rows
  induction rows with
  | nil => intro p o h; simp [pickPivot] at h
  | cons r rs ih =>
    intro p o h
    by_cases hr : r.1.headI ≠ 0
    · rw [pickPivot, if_pos hr] at h
      injection h with h1
      injection h1 with h2 h3
      subst h2; subst h3
      exact ⟨hr, [], rs, by simp, by simp⟩
    · rw [pickPivot, if_neg hr] at h
      cases hrec : pickPivot rs with
      | none => rw [hrec] at h; simp at h
      | some pr =>
        obtain ⟨p2, o2⟩ := pr
        rw [hrec] at h
        simp only [Option.map_some'] at h
        injection h with h1
        injection h1 with h2 h3
        subst h2
        obtain ⟨hhead, l₁, l₂, hrs, ho2⟩ := ih hrec
        refine ⟨hhead, r :: l₁, l₂, by simp [hrs], ?_⟩
        rw [← h3, ho2]; simp

theorem gaussAux_correct :
    ∀ (n : ℕ) (rows : List (List ℚ × ℚ)) (v : List ℚ),
      (∀ r ∈ rows, r.1.length = n) → gaussAux n rows = some v →
      v.length = n ∧ ∀ r ∈ rows, dotProd r.1 v = r.2 := by
  intro n
  induction n with
  | zero =>
    intro rows v hlen h
    rw [gaussAux] at h
    split at h
    · cases h
      rename_i hall
      refine ⟨rfl, fun r hr => ?_⟩
      have h1 : r.1 = [] := List.length_eq_zero.mp (hlen r hr)
      have h2 : r.2 = 0 := by
        rw [List.all_eq_true] at hall
        simpa using hall r hr
      rw [h1, h2]; rfl
    · cases h
  | succ n ih =>
    intro rows v hlen h
    cases hpick : pickPivot rows with
    | none => simp [gaussAux, hpick] at h
    | some po =>
      obtain ⟨piv, others⟩ := po
      simp only [gaussAux, hpick] at h
      cases hrec : gaussAux n (others.map (reduceRow piv.1.headI piv.1.tail piv.2)) with
      | none => simp [hrec] at h
      | some xs =>
        simp only [hrec, Option.some.injEq] at h
        obtain ⟨hhead, l₁, l₂, hdecomp, hoth⟩ := pickPivot_split hpick
        have hmemo : ∀ q ∈ others, q ∈ rows := by
          intro q hq
          rw [hoth] at hq
          rw [hdecomp]
          rcases List.mem_append.mp hq with hq | hq
          · exact List.mem_append.mpr (Or.inl hq)
          · exact List.mem_append.mpr (Or.inr (List.mem_cons_of_mem _ hq))
        have hpivmem : piv ∈ rows := by
          rw [hdecomp]; exact List.mem_append.mpr (Or.inr (List.mem_cons_self _ _))
        have hpivlen : piv.1.length = n + 1 := hlen piv hpivmem
        have hptlen : piv.1.tail.length = n := by
          rw [List.length_tail, hpivlen]; omega
        have hredlen : ∀ r ∈ others.map (reduceRow piv.1.headI piv.1.tail piv.2),
            r.1.length = n := by
          intro r hr
          obtain ⟨q, hq, rfl⟩ := List.mem_map.mp hr
          have hq1 : q.1.tail.length = n := by
            rw [List.length_tail, hlen q (hmemo q hq)]; omega
          simp [reduceRow, List.length_zipWith, hq1, hptlen]
        obtain ⟨hxslen, hxs⟩ := ih _ xs hredlen hrec
        have hpivtail : piv.1 = piv.1.headI :: piv.1.tail := by
          cases hp1 : piv.1 with
          | nil => rw [hp1] at hpivlen; cases hpivlen
          | cons c cs => simp
        have hother : ∀ r ∈ others, dotProd r.1 v = r.2 := by
          intro r hro
          have hrlen : r.1.length = n + 1 := hlen r (hmemo r hro)
          have hrtail : r.1 = r.1.headI :: r.1.tail := by
            cases hr1 : r.1 with
            | nil => rw [hr1] at hrlen; cases hrlen
            | cons c cs => simp
          have hred := hxs (reduceRow piv.1.headI piv.1.tail piv.2 r)
            (List.mem_map_of_mem _ hro)
          simp only [reduceRow] at hred
          rw [dotProd_zipWith_sub _ _ _ _
            (by rw [List.length_tail, hrlen, hptlen]; omega)] at hred
          rw [hrtail, ← h]
          show r.1.headI * ((piv.2 - dotProd piv.1.tail xs) / piv.1.headI) +
            dotProd r.1.tail xs = r.2
          have hx : dotProd r.1.tail xs =
              r.2 - r.1.headI / piv.1.headI * piv.2 +
                r.1.headI / piv.1.headI * dotProd piv.1.tail xs := by
            linarith [hred]
          rw [hx]
          field_simp
          ring
        refine ⟨by rw [← h]; simp [hxslen], fun r hr => ?_⟩
        rw [hdecomp] at hr
        rcases List.mem_append.mp hr with hr | hr
        · exact hother r (by rw [hoth]; exact List.mem_append.mpr (Or.inl hr))
        · rcases List.mem_cons.mp hr with hr | hr
          · subst hr
            rw [hpivtail, ← h]
            show r.1.headI * ((r.2 - dotProd r.1.tail xs) / r.1.headI) +
              dotProd r.1.tail xs = r.2
            field_simp
          · exact hother r (by rw [hoth]; exact List.mem_append.mpr (Or.inr hr))

/-! ### Failure of the elimination on degenerate systems -/

theorem gaussAux_zero_row :
    ∀ (n : ℕ) (rows : List (List ℚ × ℚ)) (r : List ℚ × ℚ),
      (∀ q ∈ rows, q.1.length = n) → rows.length = n → r ∈ rows →
      (∀ c ∈ r.1, c = 0) → gaussAux n rows = none := by
  intro n
  induction n with
  | zero =>
    intro rows r _ hcnt hr _
    rw [List.length_eq_zero.mp hcnt] at hr
    cases hr
  | succ n ih =>
    intro rows r hlen hcnt hr hzero
    cases hpick : pickPivot rows with
    | none => simp [gaussAux, hpick]
    | some po =>
      obtain ⟨piv, others⟩ := po
      obtain ⟨hhead, l₁, l₂, hdecomp, hoth⟩ := pickPivot_split hpick
      have hmemo : ∀ q ∈ others, q ∈ rows := by
        intro q hq
        rw [hoth] at hq
        rw [hdecomp]
        rcases List.mem_append.mp hq with hq | hq
        · exact List.mem_append.mpr (Or.inl hq)
        · exact List.mem_append.mpr (Or.inr (List.mem_cons_of_mem _ hq))
      have hpivmem : piv ∈ rows := by
        rw [hdecomp]; exact List.mem_append.mpr (Or.inr (List.mem_cons_self _ _))
      have hptlen : piv.1.tail.length = n := by
        rw [List.length_tail, hlen piv hpivmem]; omega
      have hrlen : r.1.length = n + 1 := hlen r hr
      have hrhead : r.1.headI = 0 := by
        cases hr1 : r.1 with
        | nil => rw [hr1] at hrlen; cases hrlen
        | cons c cs => exact hzero c (by rw [hr1]; exact List.mem_cons_self _ _)
      have hrne : r ≠ piv := by
        intro hcontra
        rw [hcontra] at hrhead
        exact hhead hrhead
      have hro : r ∈ others := by
        rw [hdecomp] at hr
        rw [hoth]
        rcases List.mem_append.mp hr with hr | hr
        · exact List.mem_append.mpr (Or.inl hr)
        · rcases List.mem_cons.mp hr with hr | hr
          · exact absurd hr hrne
          · exact List.mem_append.mpr (Or.inr hr)
      have hredlen : ∀ q ∈ others.map (reduceRow piv.1.headI piv.1.tail piv.2),
          q.1.length = n := by
        intro q hq
        obtain ⟨q0, hq0, rfl⟩ := List.mem_map.mp hq
        have hq1 : q0.1.tail.length = n := by
          rw [List.length_tail, hlen q0 (hmemo q0 hq0)]; omega
        simp [reduceRow, List.length_zipWith, hq1, hptlen]
      have hredcnt : (others.map (reduceRow piv.1.headI piv.1.tail piv.2)).length = n := by
        have h1 : rows.length = l₁.length + l₂.length + 1 := by
          rw [hdecomp]; simp; omega
        have h2 : others.length = l₁.length + l₂.length := by
          rw [hoth]; simp
        rw [List.length_map]
        omega
      have hzr : ∀ c ∈ (reduceRow piv.1.headI piv.1.tail piv.2 r).1, c = 0 := by
        intro c hc
        simp only [reduceRow] at hc
        obtain ⟨u, hu, v0, _, rfl⟩ := mem_zipWith_pair hc
        have hu0 : u = 0 := hzero u (List.mem_of_mem_tail hu)
        rw [hu0, hrhead]
        simp
      have := ih _ (reduceRow piv.1.headI piv.1.tail piv.2 r) hredlen hredcnt
        (List.mem_map_of_mem _ hro) hzr
      simp [gaussAux, hpick, this]

theorem count_le_count_map_rows (f : List ℚ → List ℚ) :
    ∀ (l : List (List ℚ)) (x : List ℚ), l.count x ≤ (l.map f).count (f x) := by
  intro l x
  induction l with
  | nil => simp
  | cons a l ih =>
    simp only [List.map_cons, List.count_cons]
    by_cases hax : a = x
    · subst hax
      simp only [beq_self_eq_true, if_true]
      omega
    · have h1 : (a == x) = false := by simpa using hax
      simp only [h1, Bool.false_eq_true, if_false, add_zero]
      cases h2 : (f a == f x) <;> simp <;> omega

theorem gaussAux_dup_rows :
    ∀ (n : ℕ) (rows : List (List ℚ × ℚ)),
      (∀ q ∈ rows, q.1.length = n) → rows.length = n →
      (∃ cs : List ℚ, 2 ≤ (rows.map Prod.fst).count cs) →
      gaussAux n rows = none := by
  intro n
  induction n with
  | zero =>
    intro rows _ hcnt hdup
    obtain ⟨cs, hcs⟩ := hdup
    rw [List.length_eq_zero.mp hcnt] at hcs
    simp at hcs
  | succ n ih =>
    intro rows hlen hcnt hdup
    cases hpick : pickPivot rows with
    | none => simp [gaussAux, hpick]
    | some po =>
      obtain ⟨piv, others⟩ := po
      obtain ⟨hhead, l₁, l₂, hdecomp, hoth⟩ := pickPivot_split hpick
      have hmemo : ∀ q ∈ others, q ∈ rows := by
        intro q hq
        rw [hoth] at hq
        rw [hdecomp]
        rcases List.mem_append.mp hq with hq | hq
        · exact List.mem_append.mpr (Or.inl hq)
        · exact List.mem_append.mpr (Or.inr (List.mem_cons_of_mem _ hq))
      have hpivmem : piv ∈ rows := by
        rw [hdecomp]; exact List.mem_append.mpr (Or.inr (List.mem_cons_self _ _))
      have hptlen : piv.1.tail.length = n := by
        rw [List.length_tail, hlen piv hpivmem]; omega
      have hredlen : ∀ q ∈ others.map (reduceRow piv.1.headI piv.1.tail piv.2),
          q.1.length = n := by
        intro q hq
        obtain ⟨q0, hq0, rfl⟩ := List.mem_map.mp hq
        have hq1 : q0.1.tail.length = n := by
          rw [List.length_tail, hlen q0 (hmemo q0 hq0)]; omega
        simp [reduceRow, List.length_zipWith, hq1, hptlen]
      have hredcnt : (others.map (reduceRow piv.1.headI piv.1.tail piv.2)).length = n := by
        have h1 : rows.length = l₁.length + l₂.length + 1 := by
          rw [hdecomp]; simp; omega
        have h2 : others.length = l₁.length + l₂.length := by
          rw [hoth]; simp
        rw [List.length_map]
        omega
      by_cases hq : ∃ q ∈ others, q.1 = piv.1
      · -- a copy of the pivot row survives: it reduces to an all-zero row
        obtain ⟨q, hqo, hq1⟩ := hq
        have hzr : ∀ c ∈ (reduceRow piv.1.headI piv.1.tail piv.2 q).1, c = 0 := by
          intro c hc
          simp only [reduceRow, hq1] at hc
          rw [List.zipWith_same] at hc
          obtain ⟨u, _, rfl⟩ := List.mem_map.mp hc
          rw [div_self hhead]
          ring
        have := gaussAux_zero_row n _ (reduceRow piv.1.headI piv.1.tail piv.2 q)
          hredlen hredcnt (List.mem_map_of_mem _ hqo) hzr
        simp [gaussAux, hpick, this]
      · -- the duplicate pair avoids the pivot and survives reduction
        obtain ⟨cs, hcs⟩ := hdup
        have hpivne : piv.1 ≠ cs := by
          intro hcontra
          subst hcontra
          have h2 : 1 ≤ (others.map Prod.fst).count piv.1 := by
            have hsplit : rows.map Prod.fst =
                l₁.map Prod.fst ++ piv.1 :: l₂.map Prod.fst := by
              rw [hdecomp]; simp
            have hsplit2 : others.map Prod.fst =
                l₁.map Prod.fst ++ l₂.map Prod.fst := by
              rw [hoth]; simp
            rw [hsplit] at hcs
            rw [hsplit2]
            simp only [List.count_append, List.count_cons_self] at hcs ⊢
            omega
          have hmem : piv.1 ∈ others.map Prod.fst := by
            rw [← List.count_pos_iff_mem]
            omega
          obtain ⟨q, hqo, hq1⟩ := List.mem_map.mp hmem
          exact hq ⟨q, hqo, hq1⟩
        have hcso : 2 ≤ (others.map Prod.fst).count cs := by
          have hsplit : rows.map Prod.fst =
              l₁.map Prod.fst ++ piv.1 :: l₂.map Prod.fst := by
            rw [hdecomp]; simp
          have hsplit2 : others.map Prod.fst =
              l₁.map Prod.fst ++ l₂.map Prod.fst := by
            rw [hoth]; simp
          rw [hsplit] at hcs
          rw [hsplit2]
          rw [List.count_append] at hcs ⊢
          have hne2 : (piv.1 == cs) = false := by
            simpa using hpivne
          simp only [List.count_cons, hne2, Bool.false_eq_true, if_false] at hcs
          omega
        have hmapmap : (others.map (reduceRow piv.1.headI piv.1.tail piv.2)).map Prod.fst =
            (others.map Prod.fst).map
              (fun c => List.zipWith (fun u v0 => u - c.headI / piv.1.headI * v0)
                c.tail piv.1.tail) := by
          rw [List.map_map, List.map_map]
          rfl
        refine ?_
        have hdup2 : ∃ cs2 : List ℚ,
            2 ≤ ((others.map (reduceRow piv.1.headI piv.1.tail piv.2)).map Prod.fst).count cs2 := by
          refine ⟨List.zipWith (fun u v0 => u - cs.headI / piv.1.headI * v0) cs.tail piv.1.tail, ?_⟩
          rw [hmapmap]
          have hle := count_le_count_map_rows
            (fun c => List.zipWith (fun u v0 => u - c.headI / piv.1.headI * v0)
              c.tail piv.1.tail) (others.map Prod.fst) cs
          exact le_trans hcso hle
        have := ih _ hredlen hredcnt hdup2
        simp [gaussAux, hpick, this]

/-! ### Structure of the extended interpolation system -/

theorem getD_eq_get_of_lt {α : Type} :
    ∀ (l : List α) (d : α) (i : ℕ) (h : i < l.length), l.getD i d = l.get ⟨i, h⟩ := by
  intro l
  induction l with
  | nil => intro d i h; simp at h
  | cons a l ih =>
    intro d i h
    cases i with
    | zero => rfl
    | succ i => exact ih d i (by simpa using h)

theorem mkRows_length (w : ℚ → ℚ) (m : ℕ) :
    ∀ (j : ℕ) (x y : List ℚ), (mkRows w m j x y).length = min x.length y.length := by
  intro j x
  induction x generalizing j with
  | nil => intro y; cases y <;> simp [mkRows]
  | cons xi xs ih =>
    intro y
    cases y with
    | nil => simp [mkRows]
    | cons yi ys => simp [mkRows, ih (j + 1) ys]; omega

theorem mkRows_coeff_length (w : ℚ → ℚ) (m : ℕ) :
    ∀ (j : ℕ) (x y : List ℚ) (q : List ℚ × ℚ),
      q ∈ mkRows w m j x y → q.1.length = m + 1 := by
  intro j x
  induction x generalizing j with
  | nil => intro y q hq; simp [mkRows] at hq
  | cons xi xs ih =>
    intro y q hq
    cases y with
    | nil => simp [mkRows] at hq
    | cons yi ys =>
      rcases List.mem_cons.mp hq with hq | hq
      · subst hq
        simp [powRow]
      · exact ih (j + 1) ys q hq

theorem mkRows_getD (w : ℚ → ℚ) (m : ℕ) :
    ∀ (i j : ℕ) (x y : List ℚ), i < x.length → i < y.length →
      (mkRows w m j x y).getD i ([], 0) =
        (powRow (x.getD i 0) m ++ [(-1 : ℚ) ^ (j + i) * w (x.getD i 0)],
          y.getD i 0) := by
  intro i
  induction i with
  | zero =>
    intro j x y hx hy
    cases x with
    | nil => simp at hx
    | cons xi xs =>
      cases y with
      | nil => simp at hy
      | cons yi ys => simp [mkRows]
  | succ i ih =>
    intro j x y hx hy
    cases x with
    | nil => simp at hx
    | cons xi xs =>
      cases y with
      | nil => simp at hy
      | cons yi ys =>
        have h1 : j + 1 + i = j + (i + 1) := by omega
        have := ih (j + 1) xs ys (by simpa using hx) (by simpa using hy)
        simpa [mkRows, h1] using this

theorem getLastD_eq_getLast {α : Type} :
    ∀ (l : List α) (d : α) (h : l ≠ []), l.getLastD d = l.getLast h := by
  intro l
  induction l with
  | nil => intro d h; exact absurd rfl h
  | cons a l ih =>
    intro d h
    cases l with
    | nil => rfl
    | cons b t =>
      rw [List.getLast_cons (by simp : b :: t ≠ [])]
      exact ih a (by simp)

theorem getD_mem_of_lt {α : Type} (l : List α) (d : α) (i : ℕ) (h : i < l.length) :
    l.getD i d ∈ l := by
  rw [getD_eq_get_of_lt l d i h]
  exact List.get_mem _ _ _

theorem two_le_count_of_getD_eq :
    ∀ (l : List (List ℚ)) (i j : ℕ), i < j → j < l.length →
      l.getD i [] = l.getD j [] → 2 ≤ l.count (l.getD i []) := by
  intro l
  induction l with
  | nil => intro i j _ hj _; simp at hj
  | cons a l ih =>
    intro i j hij hj he
    cases j with
    | zero => omega
    | succ j =>
      have hjl : j < l.length := by simpa using hj
      cases i with
      | zero =>
        have he2 : a = l.getD j [] := he
        have hmem : a ∈ l := by
          rw [he2]
          exact getD_mem_of_lt l [] j hjl
        have h1 : 0 < l.count a := List.count_pos_iff.mpr hmem
        show 2 ≤ (a :: l).count a
        rw [List.count_cons_self]
        omega
      | succ i =>
        have he2 : l.getD i [] = l.getD j [] := he
        have h2 := ih i j (by omega) hjl he2
        show 2 ≤ (a :: l).count (l.getD i [])
        rw [List.count_cons]
        split <;> omega

/-- **C5, amended.**  The original claim — the solver fails with a
`SingularSystemError` whenever the abscissas are not pairwise distinct — is
false: two equal abscissas at positions of opposite parity can leave the
bordered Vandermonde matrix non-singular (see the counterexample).  What
holds is: whenever two equal abscissas occupy positions of equal parity,
the matrix has two identical rows, and the solver fails (`np.linalg.solve`
raises `LinAlgError`, modelled by `none`); the failure is the solver's
result itself, so it is surfaced to the caller and not retried. -/
theorem claim_C5_dup_same_parity_singular
    (w : ℚ → ℚ) (x y : List ℚ) (hxy : x.length = y.length)
    (i j : ℕ) (hij : i < j) (hj : j < x.length)
    (hx : x.getD i 0 = x.getD j 0) (hpar : i % 2 = j % 2) :
    solveW w x y = none := by
  have hi : i < x.length := lt_trans hij hj
  have hn1 : 1 ≤ x.length := by omega
  have hrowsn : (mkRows w (x.length - 1) 0 x y).length = x.length := by
    rw [mkRows_length, hxy]; omega
  have hlens : ∀ q ∈ mkRows w (x.length - 1) 0 x y, q.1.length = x.length := by
    intro q hq
    have := mkRows_coeff_length w (x.length - 1) 0 x y q hq
    omega
  have hneg : (-1 : ℚ) ^ i = (-1 : ℚ) ^ j := by
    rcases Nat.even_or_odd i with he | ho
    · have hej : Even j := by
        rw [Nat.even_iff] at he ⊢
        omega
      rw [he.neg_one_pow, hej.neg_one_pow]
    · have hoj : Odd j := by
        rw [Nat.odd_iff] at ho ⊢
        omega
      rw [ho.neg_one_pow, hoj.neg_one_pow]
  have hrowi : (mkRows w (x.length - 1) 0 x y).getD i ([], 0) =
      (powRow (x.getD i 0) (x.length - 1) ++ [(-1 : ℚ) ^ i * w (x.getD i 0)],
        y.getD i 0) := by
    have := mkRows_getD w (x.length - 1) i 0 x y hi (by omega)
    simpa using this
  have hrowj : (mkRows w (x.length - 1) 0 x y).getD j ([], 0) =
      (powRow (x.getD j 0) (x.length - 1) ++ [(-1 : ℚ) ^ j * w (x.getD j 0)],
        y.getD j 0) := by
    have := mkRows_getD w (x.length - 1) j 0 x y hj (by omega)
    simpa using this
  have hdup : ∃ cs : List ℚ,
      2 ≤ ((mkRows w (x.length - 1) 0 x y).map Prod.fst).count cs := by
    set rows := mkRows w (x.length - 1) 0 x y with hrows
    have hiL : i < (rows.map Prod.fst).length := by
      rw [List.length_map, hrowsn]; omega
    have hjL : j < (rows.map Prod.fst).length := by
      rw [List.length_map, hrowsn]; omega
    have hgeti : (rows.map Prod.fst).get ⟨i, hiL⟩ =
        powRow (x.getD i 0) (x.length - 1) ++ [(-1 : ℚ) ^ i * w (x.getD i 0)] := by
      rw [List.get_map]
      have hi2 : i < rows.length := by rw [hrowsn]; omega
      rw [← getD_eq_get_of_lt rows ([], 0) i hi2, hrowi]
    have hgetj : (rows.map Prod.fst).get ⟨j, hjL⟩ =
        powRow (x.getD j 0) (x.length - 1) ++ [(-1 : ℚ) ^ j * w (x.getD j 0)] := by
      rw [List.get_map]
      have hj2 : j < rows.length := by rw [hrowsn]; omega
      rw [← getD_eq_get_of_lt rows ([], 0) j hj2, hrowj]
    have hLi : (rows.map Prod.fst).getD i [] =
        powRow (x.getD i 0) (x.length - 1) ++ [(-1 : ℚ) ^ i * w (x.getD i 0)] := by
      rw [getD_eq_get_of_lt _ [] i hiL]
      exact hgeti
    have hLj : (rows.map Prod.fst).getD j [] =
        powRow (x.getD j 0) (x.length - 1) ++ [(-1 : ℚ) ^ j * w (x.getD j 0)] := by
      rw [getD_eq_get_of_lt _ [] j hjL]
      exact hgetj
    refine ⟨(rows.map Prod.fst).getD i [],
      two_le_count_of_getD_eq (rows.map Prod.fst) i j hij hjL ?_⟩
    rw [hLi, hLj, hx, hneg]
  have hgauss := gaussAux_dup_rows x.length (mkRows w (x.length - 1) 0 x y)
    hlens hrowsn hdup
  simp [solveW, hgauss]

/-- **C5, counterexample to the original claim.**  `solve([0, 0], [1, 0])`
has non-distinct abscissas, yet the bordered matrix `[[1, 1], [1, -1]]` is
non-singular and the solver returns `p = [1/2]`, `e = 1/2` instead of
failing. -/
theorem claim_C5_counterexample :
    solve [0, 0] [1, 0] = some ([1 / 2], 1 / 2) := by decide

/-- Witness for `claim_C5_dup_same_parity_singular` at the concrete input
`x = [0, 1, 0]`, `y = [1, 0, 1]` (equal abscissas at positions 0 and 2). -/
theorem claim_C5_witness :
    ([0, 1, 0] : List ℚ).length = ([1, 0, 1] : List ℚ).length ∧
      solveW (fun _ => 1) [0, 1, 0] [1, 0, 1] = none :=
  ⟨by decide, claim_C5_dup_same_parity_singular (fun _ => 1) [0, 1, 0] [1, 0, 1]
    (by decide) 0 2 (by decide) (by decide) (by decide) (by decide)⟩

/-- The interpolation identity satisfied by every successful run of the
extended solver, with the sign of the solved unknown made explicit. -/
theorem solveW_sign_identity
    (w : ℚ → ℚ) (x y p : List ℚ) (e : ℚ)
    (hxy : x.length = y.length) (hs : solveW w x y = some (p, e)) :
    p.length = x.length - 1 ∧ 0 ≤ e ∧ ∃ s : ℚ, (s = 1 ∨ s = -1) ∧
      ∀ i < x.length,
        polyEval p (x.getD i 0) + s * (-1) ^ i * e * w (x.getD i 0) =
          y.getD i 0 := by
  rw [solveW] at hs
  cases hgauss : gaussAux x.length (mkRows w (x.length - 1) 0 x y) with
  | none => rw [hgauss] at hs; cases hs
  | some v =>
    rw [hgauss] at hs
    simp only [Option.some.injEq, Prod.mk.injEq] at hs
    obtain ⟨hp, he⟩ := hs
    have hlens : ∀ q ∈ mkRows w (x.length - 1) 0 x y, q.1.length = x.length := by
      intro q hq
      have h1 := mkRows_coeff_length w (x.length - 1) 0 x y q hq
      have h2 : 0 < (mkRows w (x.length - 1) 0 x y).length :=
        List.length_pos.mpr (List.ne_nil_of_mem hq)
      rw [mkRows_length] at h2
      omega
    obtain ⟨hvlen, heqs⟩ := gaussAux_correct x.length _ v hlens hgauss
    have hplen : p.length = x.length - 1 := by
      rw [← hp, List.length_dropLast, hvlen]
    refine ⟨hplen, by rw [← he]; exact abs_nonneg _, ?_⟩
    set eps := v.getLastD 0 with heps
    refine ⟨if 0 ≤ eps then 1 else -1, by split <;> simp, ?_⟩
    intro i hi
    have hn1 : 1 ≤ x.length := by omega
    have hrowsn : (mkRows w (x.length - 1) 0 x y).length = x.length := by
      rw [mkRows_length, hxy]; omega
    have hi2 : i < (mkRows w (x.length - 1) 0 x y).length := by omega
    have hmem : (mkRows w (x.length - 1) 0 x y).getD i ([], 0) ∈
        mkRows w (x.length - 1) 0 x y := by
      rw [getD_eq_get_of_lt _ _ _ hi2]
      exact List.get_mem _ _ _
    have heq := heqs _ hmem
    rw [mkRows_getD w (x.length - 1) i 0 x y hi (by omega)] at heq
    simp only [Nat.zero_add] at heq
    have hvne : v ≠ [] := by
      intro hcontra
      rw [hcontra] at hvlen
      simp at hvlen
      omega
    have hvsplit : v.dropLast ++ [eps] = v := by
      rw [heps, getLastD_eq_getLast v 0 hvne]
      exact List.dropLast_append_getLast hvne
    rw [← hvsplit] at heq
    have hprlen : (powRow (x.getD i 0) (x.length - 1)).length = v.dropLast.length := by
      simp [powRow, List.length_dropLast, hvlen]
    rw [dotProd_append_single _ _ _ _ hprlen] at heq
    have hpoly : polyEval p (x.getD i 0) =
        dotProd (powRow (x.getD i 0) (x.length - 1)) v.dropLast := by
      rw [polyEval, hplen, ← hp]
    rw [← hpoly] at heq
    have hse : eps = (if 0 ≤ eps then (1 : ℚ) else -1) * e := by
      rw [← he]
      split
      · rw [abs_of_nonneg (by assumption)]; ring
      · rw [abs_of_neg (by linarith [lt_of_not_le (by assumption)])]; ring
    rw [hse] at heq
    linear_combination heq

/-- **C1, amended.**  The solver's output satisfies the exact interpolation
identity only up to the sign of the solved unknown `ε` (the code returns
`e = |ε|`, discarding the sign), and with the weight factor multiplying `e`
rather than dividing it: for some fixed `s ∈ {1, -1}`, for every `i`,
`Σ p[k]·x[i]^k + s·(-1)^i·e·w(x[i]) = y[i]`, where `w` is the solver's
weight column factor (constantly 1 in the unweighted solver, `1/weight_A`
on `x ≤ A` in the weighted one).  The original claim's identity
`Σ p[k]·x[i]^k + (-1)^i·e/W(x[i]) = y[i]` fails on both counts (see the
counterexample). -/
theorem claim_C1_solver_identity
    (w : ℚ → ℚ) (x y p : List ℚ) (e : ℚ)
    (hxy : x.length = y.length) (hs : solveW w x y = some (p, e)) :
    p.length = x.length - 1 ∧ 0 ≤ e ∧ ∃ s : ℚ, (s = 1 ∨ s = -1) ∧
      ∀ i < x.length,
        polyEval p (x.getD i 0) + s * (-1) ^ i * e * w (x.getD i 0) =
          y.getD i 0 :=
  solveW_sign_identity w x y p e hxy hs

/-- **C1, counterexample to the original claim.**  Unweighted: on
`solve([0, 1], [0, 1])` the solved `ε` is negative, so with `e = |ε| = 1/2`
the stated identity fails at `i = 0`:
`p(0) + (-1)^0·e/1 = 1 ≠ y[0] = 0`.  Weighted (`weight_A = 10`, so
`W = 1/10` on the passband): on the two-point system the identity with
`e/W(x)` gives `p(0) + 10·e = 10 ≠ 1`; the true deviation is `e·W(x)`. -/
theorem claim_C1_counterexample :
    (solve [0, 1] [0, 1] = some ([1 / 2], 1 / 2) ∧
      ¬ (polyEval [1 / 2] 0 + (-1 : ℚ) ^ (0 : ℕ) * (1 / 2) / 1 = 0)) ∧
    (solveW (weigh (1 / 2) 10) [0, 1] [1, 0] = some ([10 / 11], 10 / 11) ∧
      ¬ (polyEval [10 / 11] 0 +
          (-1 : ℚ) ^ (0 : ℕ) * (10 / 11) / (weigh (1 / 2) 10 0) = 1)) := by
  constructor
  · constructor
    · decide
    · decide
  · constructor
    · decide
    · decide

/-- Witness for `claim_C1_solver_identity` at the concrete successful call
`solve([0, 1], [1, 0])`. -/
theorem claim_C1_witness :
    ([0, 1] : List ℚ).length = ([1, 0] : List ℚ).length ∧
      solveW (fun _ => 1) [0, 1] [1, 0] = some ([1 / 2], 1 / 2) ∧
      (([1 / 2] : List ℚ).length = ([0, 1] : List ℚ).length - 1 ∧
        (0 : ℚ) ≤ 1 / 2 ∧ ∃ s : ℚ, (s = 1 ∨ s = -1) ∧
        ∀ i < ([0, 1] : List ℚ).length,
          polyEval [1 / 2] (([0, 1] : List ℚ).getD i 0) +
              s * (-1) ^ i * (1 / 2) * (fun _ => (1 : ℚ)) (([0, 1] : List ℚ).getD i 0) =
            ([1, 0] : List ℚ).getD i 0) :=
  ⟨by decide, by decide,
    claim_C1_solver_identity (fun _ => 1) [0, 1] [1, 0] [1 / 2] (1 / 2)
      (by decide) (by decide)⟩

/-! ### The Selecting step: filter, alternation walk, trim -/

theorem selStep_eq_walkStep (w : ℚ → ℚ) (e : ℚ) (alt : List Cand) (le : ℚ × ℚ) :
    selStep w e alt le =
      if e - 1 / 1000 ≤ (mkCand w le).mag then walkStep alt (mkCand w le)
      else alt := rfl

theorem foldl_selStep_filter (w : ℚ → ℚ) (e : ℚ) :
    ∀ (pairs : List (ℚ × ℚ)) (alt : List Cand),
      pairs.foldl (selStep w e) alt =
        (pairs.filter (fun le => e - 1 / 1000 ≤ (mkCand w le).mag)).foldl
          (fun a le => walkStep a (mkCand w le)) alt := by
  intro pairs
  induction pairs with
  | nil => intro alt; rfl
  | cons le rest ih =>
    intro alt
    by_cases hc : e - 1 / 1000 ≤ (mkCand w le).mag
    · rw [List.foldl_cons, selStep_eq_walkStep, if_pos hc,
        List.filter_cons_of_pos (by simpa using hc), List.foldl_cons]
      exact ih (walkStep alt (mkCand w le))
    · rw [List.foldl_cons, selStep_eq_walkStep, if_neg hc,
        List.filter_cons_of_neg (by simpa using hc)]
      exact ih alt

theorem trimAltF_nil (n k : ℕ) : trimAltF n k [] = [] := by
  cases n with
  | zero => rfl
  | succ n => rw [trimAltF, if_neg (by simp)]

theorem trimAltF_congr : ∀ (n m k : ℕ) (l : List Cand),
    l.length ≤ n → l.length ≤ m → trimAltF n k l = trimAltF m k l := by
  intro n
  induction n with
  | zero =>
    intro m k l hn _
    have : l = [] := List.eq_nil_of_length_eq_zero (by omega)
    subst this
    rw [trimAltF_nil, trimAltF_nil]
  | succ n ih =>
    intro m k l hn hm
    cases l with
    | nil => rw [trimAltF_nil, trimAltF_nil]
    | cons a t =>
      cases m with
      | zero => simp at hm
      | succ m =>
        rw [trimAltF, trimAltF]
        split
        · split
          · exact ih m k (a :: t).dropLast
              (by rw [List.length_dropLast]; simp at hn ⊢; omega)
              (by rw [List.length_dropLast]; simp at hm ⊢; omega)
          · exact ih m k (a :: t).tail
              (by rw [List.length_tail]; simp at hn ⊢; omega)
              (by rw [List.length_tail]; simp at hm ⊢; omega)
        · rfl

theorem trimAlt_eq (k : ℕ) (l : List Cand) :
    trimAlt k l =
      if k < l.length then
        if l.headI.mag > (l.getLastD default).mag then trimAlt k l.dropLast
        else trimAlt k l.tail
      else l := by
  cases l with
  | nil => rw [trimAlt, if_neg (by simp), trimAltF_nil]
  | cons a t =>
    show trimAltF (t.length + 1) k (a :: t) = _
    rw [trimAltF]
    split
    · split
      · exact trimAltF_congr t.length (a :: t).dropLast.length k (a :: t).dropLast
          (by rw [List.length_dropLast]; simp) le_rfl
      · exact trimAltF_congr t.length (a :: t).tail.length k (a :: t).tail
          (by rw [List.length_tail]; simp) le_rfl
    · rfl

theorem trimAlt_len : ∀ (n k : ℕ) (l : List Cand),
    l.length ≤ n → k ≤ l.length → (trimAlt k l).length = k := by
  intro n
  induction n with
  | zero =>
    intro k l hn hk
    rw [trimAlt_eq, if_neg (by omega)]
    omega
  | succ n ih =>
    intro k l hn hk
    rw [trimAlt_eq]
    split
    · rename_i hlt
      split
      · exact ih k l.dropLast (by rw [List.length_dropLast]; omega)
          (by rw [List.length_dropLast]; omega)
      · exact ih k l.tail (by rw [List.length_tail]; omega)
          (by rw [List.length_tail]; omega)
    · rename_i hge
      omega

/-- **C2.**  The Selecting step behaves as described: (1) the fused
selection loop of the source equals the two-stage pipeline written from the
spec's words — keep exactly the extrema whose magnitude is at least
`e - 1e-3`, then walk the kept list left to right appending on a sign
change and replacing the last kept candidate on a same-signed larger
magnitude; (2) when at least `M + 2` candidates remain the trimming loop
stops with exactly `M + 2`; (3) each trimming step drops the end
(leftmost or rightmost) whose extremum magnitude is strictly smaller, and
lists of at most `M + 2` candidates are left untouched. -/
theorem claim_C2_selecting (w : ℚ → ℚ) (e : ℚ) (pairs : List (ℚ × ℚ))
    (k : ℕ) (l : List Cand) (hk : k ≤ l.length) :
    buildAlt w e pairs = specSelect w e pairs ∧
    (trimAlt k l).length = k ∧
    (∀ l2 : List Cand, k < l2.length →
      l2.headI.mag < (l2.getLastD default).mag →
      trimAlt k l2 = trimAlt k l2.tail) ∧
    (∀ l2 : List Cand, k < l2.length →
      (l2.getLastD default).mag < l2.headI.mag →
      trimAlt k l2 = trimAlt k l2.dropLast) ∧
    (∀ l2 : List Cand, l2.length ≤ k → trimAlt k l2 = l2) := by
  refine ⟨foldl_selStep_filter w e pairs [], trimAlt_len l.length k l le_rfl hk,
    ?_, ?_, ?_⟩
  · intro l2 hlt hsm
    rw [trimAlt_eq, if_pos hlt, if_neg (by exact not_lt.mpr (le_of_lt hsm))]
  · intro l2 hlt hsm
    rw [trimAlt_eq, if_pos hlt, if_pos hsm]
  · intro l2 hle
    rw [trimAlt_eq, if_neg (by omega)]

/-- Witness for `claim_C2_selecting`: a concrete selection run (one kept,
one filtered-out, one same-signed replacement) and concrete trimming steps
in all three regimes. -/
theorem claim_C2_witness :
    (buildAlt (fun _ => 1) (1 / 2) [(0, 1), (1 / 2, -1 / 4), (1, 3 / 4)] =
      specSelect (fun _ => 1) (1 / 2) [(0, 1), (1 / 2, -1 / 4), (1, 3 / 4)]) ∧
    (trimAlt 1 [⟨0, 1, 1⟩, ⟨1, -1, 2⟩]).length = 1 ∧
    trimAlt 1 [⟨0, 1, 1⟩, ⟨1, -1, 2⟩] = trimAlt 1 ([⟨0, 1, 1⟩, ⟨1, -1, 2⟩] : List Cand).tail ∧
    trimAlt 1 [⟨0, 1, 5⟩, ⟨1, -1, 2⟩] = trimAlt 1 ([⟨0, 1, 5⟩, ⟨1, -1, 2⟩] : List Cand).dropLast ∧
    trimAlt 1 [(⟨0, 1, 1⟩ : Cand)] = [(⟨0, 1, 1⟩ : Cand)] := by
  obtain ⟨h1, h2, h3, h4, h5⟩ := claim_C2_selecting (fun _ => 1) (1 / 2)
    [(0, 1), (1 / 2, -1 / 4), (1, 3 / 4)] 1 [⟨0, 1, 1⟩, ⟨1, -1, 2⟩] (by decide)
  exact ⟨h1, h2, h3 _ (by decide) (by decide), h4 _ (by decide) (by decide),
    h5 _ (by decide)⟩

/-! ### The initial candidate point set -/

/-- **C6, amended.**  For valid input (`0 < A < B < 1`, `order ≥ 3`) the
initial candidate set consists of exactly `M + 2` strictly increasing
(hence distinct) points, split proportionally between the regions:
`pA ≥ 2` evenly spaced points strictly inside `(0, A)` with ordinate 1 and
`pB = M + 2 - pA ≥ 1` evenly spaced points strictly inside `(B, 1)` with
ordinate 0.  The original claim's "at least 2 points in each region" is
false: only the first region's count is clamped to 2, and the second
region can receive exactly one point (see the counterexample). -/
theorem claim_C6_initial_points (A B : ℚ) (order : ℕ)
    (hA : 0 < A) (hAB : A < B) (hB : B < 1) (horder : 3 ≤ order) :
    ∃ pA pB : ℕ, 2 ≤ pA ∧ 1 ≤ pB ∧ pA + pB = order + 2 ∧
      (initPts A B (order + 2)).1 =
        ((List.range pA).map (fun (k : ℕ) => ((k : ℚ) + 1) * (A / (pA + 1)))) ++
          ((List.range pB).map (fun (k : ℕ) => B + ((k : ℚ) + 1) * ((1 - B) / (pB + 1)))) ∧
      (initPts A B (order + 2)).2 =
        List.replicate pA (1 : ℚ) ++ List.replicate pB (0 : ℚ) ∧
      (initPts A B (order + 2)).1.length = order + 2 ∧
      (initPts A B (order + 2)).1.Pairwise (· < ·) ∧
      (∀ t ∈ (List.range pA).map (fun (k : ℕ) => ((k : ℚ) + 1) * (A / (pA + 1))),
        0 < t ∧ t < A) ∧
      (∀ t ∈ (List.range pB).map (fun (k : ℕ) => B + ((k : ℚ) + 1) * ((1 - B) / (pB + 1))),
        B < t ∧ t < 1) := by
  have hd : 0 < A - B + 1 := by linarith
  have hptsQ : (0 : ℚ) < (order : ℚ) + 2 := by positivity
  have hcast : ((order + 2 : ℕ) : ℚ) = (order : ℚ) + 2 := by push_cast; ring
  have hq0 : 0 ≤ ((order + 2 : ℕ) : ℚ) * A / (A - B + 1) := by
    apply div_nonneg _ (le_of_lt hd)
    rw [hcast]
    positivity
  have hqlt : ((order + 2 : ℕ) : ℚ) * A / (A - B + 1) < ((order + 2 : ℕ) : ℚ) := by
    rw [div_lt_iff hd]
    have h1 : A < A - B + 1 := by linarith
    have h2 : ((order + 2 : ℕ) : ℚ) * A < ((order + 2 : ℕ) : ℚ) * (A - B + 1) := by
      apply mul_lt_mul_of_pos_left h1
      rw [hcast]; exact hptsQ
    linarith
  have hfl : pyInt (((order + 2 : ℕ) : ℚ) * A / (A - B + 1)) < ((order + 2 : ℕ) : ℤ) := by
    rw [pyInt, if_neg (not_lt.mpr hq0), Int.floor_lt]
    exact_mod_cast hqlt
  have hpA0lt : (pyInt (((order + 2 : ℕ) : ℚ) * A / (A - B + 1))).toNat < order + 2 := by
    omega
  set pA0 := (pyInt (((order + 2 : ℕ) : ℚ) * A / (A - B + 1))).toNat with hdefpA0
  set pA := if pA0 < 2 then 2 else pA0 with hdefpA
  set pB := order + 2 - pA with hdefpB
  refine ⟨pA, pB, ?_⟩
  have hpA2 : 2 ≤ pA := by rw [hdefpA]; split <;> omega
  have hpAlt : pA < order + 2 := by rw [hdefpA]; split <;> omega
  have hpB1 : 1 ≤ pB := by omega
  have hcA : (0 : ℚ) < A / ((pA : ℚ) + 1) := by positivity
  have hcB : (0 : ℚ) < (1 - B) / ((pB : ℚ) + 1) := by
    apply div_pos (by linarith) (by positivity)
  have hAin : ∀ t ∈ (List.range pA).map (fun (k : ℕ) => ((k : ℚ) + 1) * (A / (pA + 1))),
      0 < t ∧ t < A := by
    intro t ht
    obtain ⟨k, hk, rfl⟩ := List.mem_map.mp ht
    rw [List.mem_range] at hk
    constructor
    · positivity
    · have h1 : ((k : ℚ) + 1) / ((pA : ℚ) + 1) < 1 := by
        rw [div_lt_one (by positivity)]
        have : (k : ℚ) < pA := by exact_mod_cast hk
        linarith
      have h2 : ((k : ℚ) + 1) * (A / (pA + 1)) = A * (((k : ℚ) + 1) / ((pA : ℚ) + 1)) := by
        ring
      rw [h2]
      calc A * (((k : ℚ) + 1) / ((pA : ℚ) + 1)) < A * 1 :=
        mul_lt_mul_of_pos_left h1 hA
        _ = A := mul_one A
  have hBin : ∀ t ∈ (List.range pB).map
      (fun (k : ℕ) => B + ((k : ℚ) + 1) * ((1 - B) / (pB + 1))),
      B < t ∧ t < 1 := by
    intro t ht
    obtain ⟨k, hk, rfl⟩ := List.mem_map.mp ht
    rw [List.mem_range] at hk
    constructor
    · have : (0 : ℚ) < ((k : ℚ) + 1) * ((1 - B) / (pB + 1)) := by positivity
      linarith
    · have h1 : ((k : ℚ) + 1) / ((pB : ℚ) + 1) < 1 := by
        rw [div_lt_one (by positivity)]
        have : (k : ℚ) < pB := by exact_mod_cast hk
        linarith
      have h2 : ((k : ℚ) + 1) * ((1 - B) / (pB + 1)) =
          (1 - B) * (((k : ℚ) + 1) / ((pB : ℚ) + 1)) := by
        ring
      have h3 : (1 - B) * (((k : ℚ) + 1) / ((pB : ℚ) + 1)) < (1 - B) * 1 :=
        mul_lt_mul_of_pos_left h1 (by linarith)
      rw [h2]
      linarith [h3]
  have hpwA : ((List.range pA).map
      (fun (k : ℕ) => ((k : ℚ) + 1) * (A / (pA + 1)))).Pairwise (· < ·) := by
    rw [List.pairwise_map]
    apply (List.pairwise_lt_range pA).imp
    intro a b hab
    have : ((a : ℚ) + 1) < ((b : ℚ) + 1) := by
      have : (a : ℚ) < b := by exact_mod_cast hab
      linarith
    exact mul_lt_mul_of_pos_right this hcA
  have hpwB : ((List.range pB).map
      (fun (k : ℕ) => B + ((k : ℚ) + 1) * ((1 - B) / (pB + 1)))).Pairwise (· < ·) := by
    rw [List.pairwise_map]
    apply (List.pairwise_lt_range pB).imp
    intro a b hab
    have h1 : ((a : ℚ) + 1) < ((b : ℚ) + 1) := by
      have : (a : ℚ) < b := by exact_mod_cast hab
      linarith
    have := mul_lt_mul_of_pos_right h1 hcB
    linarith
  have hsplit1 : (initPts A B (order + 2)).1 =
      ((List.range pA).map (fun (k : ℕ) => ((k : ℚ) + 1) * (A / (pA + 1)))) ++
        ((List.range pB).map
          (fun (k : ℕ) => B + ((k : ℚ) + 1) * ((1 - B) / (pB + 1)))) := rfl
  have hsplit2 : (initPts A B (order + 2)).2 =
      List.replicate pA (1 : ℚ) ++ List.replicate pB (0 : ℚ) := rfl
  refine ⟨hpA2, hpB1, by omega, hsplit1, hsplit2, ?_, ?_, hAin, hBin⟩
  · rw [hsplit1]
    simp only [List.length_append, List.length_map, List.length_range]
    omega
  · rw [hsplit1, List.pairwise_append]
    refine ⟨hpwA, hpwB, ?_⟩
    intro t ht u hu
    have h1 := (hAin t ht).2
    have h2 := (hBin u hu).1
    linarith

/-- **C6, counterexample to the original claim.**  At `A = 9/10`,
`B = 19/20`, `order = 3`, the proportional split gives the second region a
single point: exactly one of the five initial abscissas lies in
`[19/20, 1]`. -/
theorem claim_C6_counterexample :
    ((initPts (9 / 10) (19 / 20) (3 + 2)).1.filter
      (fun t => (19 : ℚ) / 20 ≤ t)).length = 1 := by decide

/-- Witness for `claim_C6_initial_points` at `A = 2/5`, `B = 3/5`,
`order = 3`. -/
theorem claim_C6_witness :
    (0 : ℚ) < 2 / 5 ∧
    (∃ pA pB : ℕ, 2 ≤ pA ∧ 1 ≤ pB ∧ pA + pB = 3 + 2 ∧
      (initPts (2 / 5) (3 / 5) (3 + 2)).1 =
        ((List.range pA).map (fun (k : ℕ) => ((k : ℚ) + 1) * ((2 / 5) / (pA + 1)))) ++
          ((List.range pB).map
            (fun (k : ℕ) => 3 / 5 + ((k : ℚ) + 1) * ((1 - 3 / 5) / (pB + 1)))) ∧
      (initPts (2 / 5) (3 / 5) (3 + 2)).2 =
        List.replicate pA (1 : ℚ) ++ List.replicate pB (0 : ℚ) ∧
      (initPts (2 / 5) (3 / 5) (3 + 2)).1.length = 3 + 2 ∧
      (initPts (2 / 5) (3 / 5) (3 + 2)).1.Pairwise (· < ·) ∧
      (∀ t ∈ (List.range pA).map (fun (k : ℕ) => ((k : ℚ) + 1) * ((2 / 5) / (pA + 1))),
        0 < t ∧ t < 2 / 5) ∧
      (∀ t ∈ (List.range pB).map
          (fun (k : ℕ) => 3 / 5 + ((k : ℚ) + 1) * ((1 - 3 / 5) / (pB + 1))),
        3 / 5 < t ∧ t < 1)) :=
  ⟨by decide, claim_C6_initial_points (2 / 5) (3 / 5) 3 (by decide) (by decide)
    (by decide) (by decide)⟩

/-! ### The error-extremum locator -/

theorem headI_eq_getD (l : List ℚ) (h : l ≠ []) : l.headI = l.getD 0 0 := by
  cases l with
  | nil => exact absurd rfl h
  | cons a t => rfl

theorem getLastD_eq_getD :
    ∀ (l : List ℚ), l ≠ [] → l.getLastD 0 = l.getD (l.length - 1) 0 := by
  intro l
  induction l with
  | nil => intro h; exact absurd rfl h
  | cons a t ih =>
    intro _
    cases t with
    | nil => rfl
    | cons b t2 =>
      have h2 := ih (by simp)
      have h3 : (a :: b :: t2).getLastD 0 = (b :: t2).getLastD b := rfl
      have h4 : (b :: t2).getLastD b = (b :: t2).getLastD 0 := by
        rw [getLastD_eq_getLast _ b (by simp), getLastD_eq_getLast _ 0 (by simp)]
      rw [h3, h4, h2]
      rfl

theorem getD_map_of_lt (f : ℚ → ℚ) (l : List ℚ) (j : ℕ) (h : j < l.length) :
    (l.map f).getD j 0 = f (l.getD j 0) := by
  rw [getD_eq_get_of_lt (l.map f) 0 j (by rw [List.length_map]; omega),
    getD_eq_get_of_lt l 0 j h, List.get_map]

theorem linspace100_length (lo hi : ℚ) : (linspace100 lo hi).length = 100 := by
  simp [linspace100]

theorem linspace100_getD (lo hi : ℚ) (k : ℕ) (hk : k < 100) :
    (linspace100 lo hi).getD k 0 = lo + k * ((hi - lo) / 99) := by
  rw [linspace100, getD_eq_get_of_lt _ _ _ (by simpa using hk), List.get_map]
  congr 1
  · simp

theorem linspace100_first (lo hi : ℚ) : (linspace100 lo hi).headI = lo := by
  rw [headI_eq_getD _ (by
      intro hcontra
      have := linspace100_length lo hi
      rw [hcontra] at this
      simp at this),
    linspace100_getD lo hi 0 (by omega)]
  simp

theorem linspace100_last (lo hi : ℚ) : (linspace100 lo hi).getLastD 0 = hi := by
  rw [getLastD_eq_getD _ (by
      intro hcontra
      have := linspace100_length lo hi
      rw [hcontra] at this
      simp at this),
    linspace100_length, linspace100_getD lo hi 99 (by omega)]
  field_simp

theorem extremaIdx_mem (y : List ℚ) (j : ℕ) :
    j ∈ extremaIdx y ↔ 1 ≤ j ∧ j < y.length - 1 ∧
      sgn (y.getD (j + 1) 0 - y.getD j 0) ≠ sgn (y.getD j 0 - y.getD (j - 1) 0) := by
  simp only [extremaIdx, List.mem_map, List.mem_filter, List.mem_range,
    decide_eq_true_eq]
  constructor
  · rintro ⟨i, ⟨hi, hcond⟩, rfl⟩
    refine ⟨by omega, by omega, ?_⟩
    simpa using hcond
  · rintro ⟨h1, h2, hcond⟩
    refine ⟨j - 1, ⟨by omega, ?_⟩, by omega⟩
    have hj : j - 1 + 1 = j := by omega
    have hj2 : j - 1 + 2 = j + 1 := by omega
    rw [hj, hj2]
    simpa using hcond

theorem extremaIdx_pairwise (y : List ℚ) : (extremaIdx y).Pairwise (· < ·) := by
  rw [extremaIdx, List.pairwise_map]
  apply List.Pairwise.sublist (List.filter_sublist _)
  apply (List.pairwise_lt_range _).imp
  intro a b hab
  omega

theorem regionExtrema_spec (p : List ℚ) (lo hi val : ℚ) (hlh : lo < hi) :
    (regionExtrema p lo hi val).1.headI = lo ∧
    (regionExtrema p lo hi val).1.getLastD 0 = hi ∧
    (regionExtrema p lo hi val).1.Pairwise (· < ·) ∧
    (∀ u ∈ (regionExtrema p lo hi val).1, lo ≤ u ∧ u ≤ hi) ∧
    (regionExtrema p lo hi val).2 =
      (regionExtrema p lo hi val).1.map (fun u => val - polyEval p u) ∧
    (regionExtrema p lo hi val).1 =
      lo :: ((extremaIdx ((linspace100 lo hi).map
          (fun u => val - polyEval p u))).map
        (fun j => (linspace100 lo hi).getD j 0) ++ [hi]) := by
  have htlen : (linspace100 lo hi).length = 100 := linspace100_length lo hi
  have htne : linspace100 lo hi ≠ [] := by
    intro hcontra
    rw [hcontra] at htlen
    simp at htlen
  have hylen : ((linspace100 lo hi).map (fun u => val - polyEval p u)).length = 100 := by
    rw [List.length_map, htlen]
  have hyne : (linspace100 lo hi).map (fun u => val - polyEval p u) ≠ [] := by
    intro hcontra
    rw [hcontra] at hylen
    simp at hylen
  have hixmem : ∀ j ∈ extremaIdx ((linspace100 lo hi).map
      (fun u => val - polyEval p u)), 1 ≤ j ∧ j ≤ 98 := by
    intro j hj
    have := (extremaIdx_mem _ j).mp hj
    rw [hylen] at this
    omega
  have hr1 : (regionExtrema p lo hi val).1 =
      (linspace100 lo hi).headI ::
        ((extremaIdx ((linspace100 lo hi).map (fun u => val - polyEval p u))).map
          (fun j => (linspace100 lo hi).getD j 0) ++
          [(linspace100 lo hi).getLastD 0]) := rfl
  have hr2 : (regionExtrema p lo hi val).2 =
      ((linspace100 lo hi).map (fun u => val - polyEval p u)).headI ::
        ((extremaIdx ((linspace100 lo hi).map (fun u => val - polyEval p u))).map
          (fun j => ((linspace100 lo hi).map (fun u => val - polyEval p u)).getD j 0) ++
          [((linspace100 lo hi).map (fun u => val - polyEval p u)).getLastD 0]) := rfl
  have hgets0 : (linspace100 lo hi).getD 0 0 = lo := by
    rw [linspace100_getD lo hi 0 (by omega)]
    simp
  have hgets99 : (linspace100 lo hi).getD 99 0 = hi := by
    rw [linspace100_getD lo hi 99 (by omega)]
    field_simp
  have hhead0 : (linspace100 lo hi).headI = (linspace100 lo hi).getD 0 0 :=
    headI_eq_getD _ htne
  have h99t : (linspace100 lo hi).getLastD 0 = (linspace100 lo hi).getD 99 0 := by
    rw [getLastD_eq_getD _ htne, htlen]
  have hfirst : (linspace100 lo hi).headI = lo := by rw [hhead0, hgets0]
  have hlast : (linspace100 lo hi).getLastD 0 = hi := by rw [h99t, hgets99]
  have hstep : (0 : ℚ) < (hi - lo) / 99 := by
    apply div_pos (by linarith) (by norm_num)
  have hmono : ∀ a b : ℕ, a < b → b < 100 →
      (linspace100 lo hi).getD a 0 < (linspace100 lo hi).getD b 0 := by
    intro a b hab hb
    rw [linspace100_getD lo hi a (by omega), linspace100_getD lo hi b hb]
    have h1 : (a : ℚ) < b := by exact_mod_cast hab
    have h2 := mul_lt_mul_of_pos_right h1 hstep
    linarith
  have hle : ∀ b : ℕ, b < 100 → lo ≤ (linspace100 lo hi).getD b 0 ∧
      (linspace100 lo hi).getD b 0 ≤ hi := by
    intro b hb
    constructor
    · rcases Nat.eq_zero_or_pos b with hb0 | hb0
      · subst hb0
        exact le_of_eq hgets0.symm
      · exact le_of_lt (lt_of_eq_of_lt hgets0.symm (hmono 0 b (by omega) hb))
    · rcases Nat.lt_or_ge b 99 with hb99 | hb99
      · exact le_of_lt (lt_of_lt_of_eq (hmono b 99 hb99 (by omega)) hgets99)
      · have hb99e : b = 99 := by omega
        subst hb99e
        exact le_of_eq hgets99
  refine ⟨by rw [hr1]; simp [hfirst], ?_, ?_, ?_, ?_, by rw [hr1, hfirst, hlast]⟩
  · rw [hr1, ← List.cons_append, List.getLastD_concat]
    exact hlast
  · rw [hr1]
    rw [List.pairwise_cons]
    constructor
    · intro u hu
      rcases List.mem_append.mp hu with hu | hu
      · obtain ⟨j, hj, rfl⟩ := List.mem_map.mp hu
        obtain ⟨hj1, hj2⟩ := hixmem j hj
        rw [hhead0]
        exact hmono 0 j (by omega) (by omega)
      · rw [List.mem_singleton.mp hu, hhead0, h99t]
        exact hmono 0 99 (by omega) (by omega)
    · rw [List.pairwise_append]
      refine ⟨?_, by simp, ?_⟩
      · rw [List.pairwise_map]
        apply List.Pairwise.imp_of_mem ?_ (extremaIdx_pairwise _)
        intro a b ha hb hab
        obtain ⟨_, ha2⟩ := hixmem a ha
        obtain ⟨_, hb2⟩ := hixmem b hb
        exact hmono a b hab (by omega)
      · intro u hu z hz
        obtain ⟨j, hj, rfl⟩ := List.mem_map.mp hu
        obtain ⟨hj1, hj2⟩ := hixmem j hj
        rw [List.mem_singleton.mp hz, h99t]
        exact hmono j 99 (by omega) (by omega)
  · intro u hu
    rw [hr1] at hu
    rcases List.mem_cons.mp hu with hu | hu
    · subst hu
      rw [hhead0]
      exact hle 0 (by omega)
    · rcases List.mem_append.mp hu with hu | hu
      · obtain ⟨j, hj, rfl⟩ := List.mem_map.mp hu
        obtain ⟨_, hj2⟩ := hixmem j hj
        exact hle j (by omega)
      · rw [List.mem_singleton.mp hu, h99t]
        exact hle 99 (by omega)
  · rw [hr1, hr2]
    simp only [List.map_cons, List.map_append, List.map_map, List.map_nil,
      Function.comp]
    have h99y : ((linspace100 lo hi).map (fun u => val - polyEval p u)).getLastD 0 =
        val - polyEval p ((linspace100 lo hi).getD 99 0) := by
      rw [getLastD_eq_getD _ hyne, hylen]
      have h1 : (100 : ℕ) - 1 = 99 := by omega
      rw [h1, getD_map_of_lt _ _ 99 (by omega)]
    have hheady : ((linspace100 lo hi).map (fun u => val - polyEval p u)).headI =
        val - polyEval p ((linspace100 lo hi).getD 0 0) := by
      rw [headI_eq_getD _ hyne, getD_map_of_lt _ _ 0 (by omega)]
    have hmid : (extremaIdx ((linspace100 lo hi).map
          (fun u => val - polyEval p u))).map
          (fun j => ((linspace100 lo hi).map (fun u => val - polyEval p u)).getD j 0) =
        (extremaIdx ((linspace100 lo hi).map (fun u => val - polyEval p u))).map
          (fun j => val - polyEval p ((linspace100 lo hi).getD j 0)) := by
      apply List.map_congr_left
      intro j hj
      obtain ⟨_, hj2⟩ := hixmem j hj
      rw [getD_map_of_lt _ _ j (by omega)]
    rw [hheady, h99y, hmid, hhead0, h99t]
    simp [Function.comp_def]

/-- **C7.**  `find_error_extrema` reports the region `[0, A]` (desired
value 1) before the region `[B, 1]` (desired value 0); within each region
the reported locations are strictly increasing, start at the region's left
endpoint and end at its right endpoint, all lie inside the region, the
reported values are exactly the signed errors `D(x) - P(x)` at the
reported locations, and the interior entries are precisely the sampling
grid points at which the sign of the discrete derivative of the sampled
error changes (`extremaIdx`). -/
theorem claim_C7_find_error_extrema (p : List ℚ) (A B : ℚ)
    (hA : 0 < A) (hAB : A < B) (hB : B < 1) :
    (find_error_extrema p A B).1 =
        (regionExtrema p 0 A 1).1 ++ (regionExtrema p B 1 0).1 ∧
    (find_error_extrema p A B).2 =
        (regionExtrema p 0 A 1).2 ++ (regionExtrema p B 1 0).2 ∧
    ((regionExtrema p 0 A 1).1.headI = 0 ∧
      (regionExtrema p 0 A 1).1.getLastD 0 = A ∧
      (regionExtrema p 0 A 1).1.Pairwise (· < ·) ∧
      (∀ u ∈ (regionExtrema p 0 A 1).1, 0 ≤ u ∧ u ≤ A) ∧
      (regionExtrema p 0 A 1).2 =
        (regionExtrema p 0 A 1).1.map (fun u => 1 - polyEval p u) ∧
      (regionExtrema p 0 A 1).1 =
        0 :: ((extremaIdx ((linspace100 0 A).map
            (fun u => 1 - polyEval p u))).map
          (fun j => (linspace100 0 A).getD j 0) ++ [A])) ∧
    ((regionExtrema p B 1 0).1.headI = B ∧
      (regionExtrema p B 1 0).1.getLastD 0 = 1 ∧
      (regionExtrema p B 1 0).1.Pairwise (· < ·) ∧
      (∀ u ∈ (regionExtrema p B 1 0).1, B ≤ u ∧ u ≤ 1) ∧
      (regionExtrema p B 1 0).2 =
        (regionExtrema p B 1 0).1.map (fun u => 0 - polyEval p u) ∧
      (regionExtrema p B 1 0).1 =
        B :: ((extremaIdx ((linspace100 B 1).map
            (fun u => 0 - polyEval p u))).map
          (fun j => (linspace100 B 1).getD j 0) ++ [1])) :=
  ⟨rfl, rfl, regionExtrema_spec p 0 A 1 hA, regionExtrema_spec p B 1 0 (by linarith)⟩

/-- Witness for `claim_C7_find_error_extrema` at `p = [1/2]`, `A = 2/5`,
`B = 3/5`. -/
theorem claim_C7_witness :
    (0 : ℚ) < 2 / 5 ∧ (2 : ℚ) / 5 < 3 / 5 ∧ (3 : ℚ) / 5 < 1 ∧
      ((find_error_extrema [1 / 2] (2 / 5) (3 / 5)).1 =
        (regionExtrema [1 / 2] 0 (2 / 5) 1).1 ++
          (regionExtrema [1 / 2] (3 / 5) 1 0).1) ∧
      (regionExtrema [1 / 2] 0 (2 / 5) 1).1.Pairwise (· < ·) :=
  ⟨by decide, by decide, by decide,
    (claim_C7_find_error_extrema [1 / 2] (2 / 5) (3 / 5) (by decide) (by decide)
      (by decide)).1,
    (claim_C7_find_error_extrema [1 / 2] (2 / 5) (3 / 5) (by decide) (by decide)
      (by decide)).2.2.1.2.2.1⟩

/-! ### Driver error handling -/

theorem remezLoop_cases (w : ℚ → ℚ) (A B : ℚ) (order : ℕ) :
    ∀ (n : ℕ) (st : List ℚ × List ℚ) (last : Option IterOut),
      remezLoop w A B order n st last = .error .singular ∨
      ∃ o : Option IterOut, remezLoop w A B order n st last = .ok o := by
  intro n
  induction n with
  | zero => intro st last; exact Or.inr ⟨last, rfl⟩
  | succ n ih =>
    intro st last
    cases hsol : solveW w st.1 st.2 with
    | none =>
      left
      have hstep : remezStep w A B order st = .error .singular := by
        rw [remezStep, hsol]
      simp only [remezLoop, hstep]
    | some pe =>
      have hstep : ∃ o : IterOut, remezStep w A B order st = .ok o := by
        rw [remezStep, hsol]
        exact ⟨_, rfl⟩
      obtain ⟨o, hstep⟩ := hstep
      simp only [remezLoop, hstep]
      exact ih (o.newx, o.newy) (some o)

/-- **C4, amended.**  The unweighted fit `remez_fit` fails immediately with
the invalid-parameter error (`ValueError`) whenever `order < 3`, before any
other computation and regardless of the remaining arguments — in
particular `remez_fit(0.4, 0.6, 2, 1)` so fails.  The weighted variant
`remez_fit2`, however, performs no degree validation at all: no call of it
can produce the invalid-parameter error (its only failure modes are the
singular-system and unbound-variable errors), so the original claim is
false for the weighted variant (see the counterexample, an `order = 2`
weighted call that returns normally). -/
theorem claim_C4_degree_validation (A B Aweight : ℚ) (order : ℕ)
    (iterations : ℤ) :
    (order < 3 → remez_fit A B order iterations = .error .invalidParam) ∧
    isInvalidParam (remez_fit2 A B Aweight order iterations) = false := by
  constructor
  · intro horder
    rw [remez_fit, if_pos horder]
  · rcases remezLoop_cases (weigh A Aweight) A B order iterations.toNat
        (initPts A B (order + 2)) none with h | ⟨o, h⟩
    · rw [remez_fit2]
      rw [h]
      rfl
    · rw [remez_fit2]
      rw [h]
      cases o with
      | none => rfl
      | some o2 => rfl

/-- **C4, counterexample to the original claim.**  The weighted call
`remez_fit2(0.4, 0.6, Aweight = 10, order = 2, iterations = 1)` is not
rejected: it runs to completion and returns a fitted (degree ≤ 2)
polynomial. -/
theorem claim_C4_counterexample :
    (remez_fit2 (2 / 5) (3 / 5) 10 2 1).isOk = true := by decide

/-- Witness for `claim_C4_degree_validation` at the concrete call
`remez_fit(0.4, 0.6, order = 2, iterations = 1)` from the spec. -/
theorem claim_C4_witness :
    remez_fit (2 / 5) (3 / 5) 2 1 = .error .invalidParam ∧
      isInvalidParam (remez_fit2 (2 / 5) (3 / 5) 10 2 1) = false :=
  ⟨(claim_C4_degree_validation (2 / 5) (3 / 5) 10 2 1).1 (by decide),
    (claim_C4_degree_validation (2 / 5) (3 / 5) 10 2 1).2⟩

/-- **C10.**  With a non-positive iteration count the loop body of the
exchange driver never runs (`range(0, iterations)` is empty), so the final
`return p, data` reads the never-assigned local `p` and the call fails
with the unbound-variable error (`UnboundLocalError`) instead of returning
a polynomial — for the unweighted driver whenever its `order < 3` guard is
passed, and for the weighted driver unconditionally.  Hence a successful
return requires `iterations ≥ 1`. -/
theorem claim_C10_nonpositive_iterations (A B Aweight : ℚ) (order : ℕ)
    (iterations : ℤ) (hit : iterations ≤ 0) :
    (3 ≤ order → remez_fit A B order iterations = .error .nameError) ∧
    remez_fit2 A B Aweight order iterations = .error .nameError := by
  have h0 : iterations.toNat = 0 := Int.toNat_of_nonpos hit
  constructor
  · intro horder
    rw [remez_fit, if_neg (by omega), h0]
    rfl
  · rw [remez_fit2, h0]
    rfl

/-- Witness for `claim_C10_nonpositive_iterations` at
`A = 2/5`, `B = 3/5`, `order = 3`, `iterations = 0`. -/
theorem claim_C10_witness :
    remez_fit (2 / 5) (3 / 5) 3 0 = .error .nameError ∧
      remez_fit2 (2 / 5) (3 / 5) 10 3 0 = .error .nameError :=
  ⟨(claim_C10_nonpositive_iterations (2 / 5) (3 / 5) 10 3 0 (by decide)).1
      (by decide),
    (claim_C10_nonpositive_iterations (2 / 5) (3 / 5) 10 3 0 (by decide)).2⟩

/-! ### The weighted variant -/

/-- **C8, amended.**  In the weighted variant every error comparison is
scaled by `1/W(x)` — a candidate's magnitude is `|err|/W(loc)` with
`W = weigh`, i.e. `W(x) = 1/weight_A` on `x ≤ A` and `1` on the rest — but
the entries of the solved `e` are scaled by `W(x)`, not `1/W(x)`: at every
interpolation point the deviation of the fitted polynomial is
`e·|W(x)|` (so `e/weight_A` on the passband).  Consequently the reported
passband error of every successful weighted call equals the `[B, 1]`-region
error divided by `weight_A` exactly: `Aerr · Aweight = Berr`. -/
theorem claim_C8_weighting (A B Aweight : ℚ) (order : ℕ) (iterations : ℤ)
    (hw : Aweight ≠ 0) :
    (∀ pd : List ℚ × RData2,
      remez_fit2 A B Aweight order iterations = .ok pd →
      pd.2.Aerr * Aweight = pd.2.Berr) ∧
    (∀ le : ℚ × ℚ, (mkCand (weigh A Aweight) le).mag =
      |le.2| / weigh A Aweight le.1) ∧
    (∀ x y p : List ℚ, ∀ e : ℚ, x.length = y.length →
      solveW (weigh A Aweight) x y = some (p, e) →
      ∀ i < x.length,
        |polyEval p (x.getD i 0) - y.getD i 0| =
          e * |weigh A Aweight (x.getD i 0)|) := by
  refine ⟨?_, fun le => rfl, ?_⟩
  · intro pd hpd
    rw [remez_fit2] at hpd
    rcases remezLoop_cases (weigh A Aweight) A B order iterations.toNat
        (initPts A B (order + 2)) none with h | ⟨o, h⟩
    · rw [h] at hpd
      cases hpd
    · rw [h] at hpd
      cases o with
      | none => cases hpd
      | some o2 =>
        simp only [Except.ok.injEq] at hpd
        rw [← hpd]
        exact div_mul_cancel₀ o2.e hw
  · intro x y p e hxy hs i hi
    obtain ⟨hplen, he0, s, hsor, hid⟩ :=
      solveW_sign_identity (weigh A Aweight) x y p e hxy hs
    have h1 := hid i hi
    have h2 : polyEval p (x.getD i 0) - y.getD i 0 =
        -(s * (-1) ^ i * e * weigh A Aweight (x.getD i 0)) := by linarith
    rw [h2, abs_neg, abs_mul, abs_mul, abs_mul]
    have hs1 : |s| = 1 := by rcases hsor with h | h <;> rw [h] <;> simp
    have hpow : |(-1 : ℚ) ^ i| = 1 := by rw [abs_pow]; simp
    rw [hs1, hpow, abs_of_nonneg he0]
    ring

/-- **C8, counterexample to the original claim.**  On the two-point
weighted system with `weight_A = 10` (`W = 1/10` on the passband) the
solved deviation at the passband point is `e·W(x) = e/10`, not the claimed
`e/W(x) = 10·e`. -/
theorem claim_C8_counterexample :
    solveW (weigh (1 / 2) 10) [0, 1] [1, 0] = some ([10 / 11], 10 / 11) ∧
    |polyEval [10 / 11] 0 - 1| = (10 / 11 : ℚ) * |weigh (1 / 2) 10 0| ∧
    ¬ (|polyEval [10 / 11] 0 - 1| = (10 / 11 : ℚ) / weigh (1 / 2) 10 0) := by
  refine ⟨by decide, by decide, by decide⟩

set_option maxRecDepth 40000 in
set_option maxHeartbeats 2000000 in
/-- Witness for `claim_C8_weighting`: a successful concrete weighted call
(`A = 2/5`, `B = 3/5`, `weight_A = 10`, `order = 3`, one iteration) whose
reported errors satisfy `Aerr · 10 = Berr`, together with the
comparison-scaling fact and the deviation scaling on a concrete solve. -/
theorem claim_C8_witness :
    ((10 : ℚ) ≠ 0) ∧
    (remez_fit2 (2 / 5) (3 / 5) 10 3 1 =
      .ok ([1316286 / 2045057, 9048735 / 2045057, -28958400 / 2045057,
            19318500 / 2045057],
        ⟨[2 / 15, 4 / 15, 7 / 10, 4 / 5, 9 / 10], [1, 1, 0, 0, 0],
          8703 / 2045057, 87030 / 2045057,
          [0, 32 / 165, 2 / 5, 3 / 5, 133 / 165]⟩)) ∧
    ((8703 / 2045057 : ℚ) * 10 = 87030 / 2045057) ∧
    (mkCand (weigh (2 / 5) 10) (1 / 5, -3 / 7)).mag =
      |(-3 / 7 : ℚ)| / weigh (2 / 5) 10 (1 / 5) := by
  have h := claim_C8_weighting (2 / 5) (3 / 5) 10 3 1 (by decide)
  have hrun : remez_fit2 (2 / 5) (3 / 5) 10 3 1 =
      .ok ([1316286 / 2045057, 9048735 / 2045057, -28958400 / 2045057,
            19318500 / 2045057],
        ⟨[2 / 15, 4 / 15, 7 / 10, 4 / 5, 9 / 10], [1, 1, 0, 0, 0],
          8703 / 2045057, 87030 / 2045057,
          [0, 32 / 165, 2 / 5, 3 / 5, 133 / 165]⟩) := by decide
  exact ⟨by decide, hrun, h.1 _ hrun, h.2.1 (1 / 5, -3 / 7)⟩

set_option maxRecDepth 40000 in
set_option maxHeartbeats 2000000 in
/-- **C3.**  The alternation-collapse path is unguarded: on the call
`remez_fit(A = 0.7, B = 0.3, order = 4, iterations = 3)` (the region edges
are accepted unvalidated) the Selecting step of the second iteration keeps
only 4 < `order + 2 = 6` candidates, and instead of failing with an
`UnderdeterminedFitError` the driver silently solves the smaller 4×4
system on the next iteration and returns a degree-2 polynomial (3
coefficients instead of 5) from a 4-point final state. -/
theorem claim_C3_unguarded_selection :
    remez_fit (7 / 10) (3 / 10) 4 3 =
      .ok ([13 / 15, 11 / 7, -242 / 105],
        ⟨[0, 7 / 22, 15 / 22, 1], [1, 1, 1, 0], 2 / 15,
          [0, 56 / 165, 7 / 10, 113 / 330]⟩) := by decide

end Remez
